import Mathlib

/-!
Verification development for a cash-and-carry backtester consisting of a
stream synchronizer with interval resampling (market_data_provider.py),
a funding-rate temporal index (fee_rate_provider.py), a signal engine
(trading_signals.py), a position ledger / strategy engine
(trading_strategies.py) and a day runner (backtester.py).

The Python sources are shallowly embedded: tick readers become lists of
ticks, mutable objects become explicit state records, exceptions become
`Except`, and floats become exact rationals.
-/

namespace Backtest

/-! ### Stream synchronizer (market_data_provider.py, `MarketDataProvider`)

A `Tick` carries the only datum the merge inspects: its timestamp.
The per-side reader pipeline (`_read_next_valid_swap` / `_read_next_valid_spot`
with file rollover and the end-of-window bound) is modelled by a list holding,
in order, exactly the type-matching ticks inside the day window across all
file segments; exhaustion of the list is the pipeline returning `None`. -/

structure Tick where
  timestamp : ℚ
deriving DecidableEq

/-- Synchronizer state: the remaining spot pipeline, the remaining swap
pipeline after the buffered tick, and the buffered swap tick
(`self.current_swap`). -/
structure SyncState where
  spots : List Tick
  swaps : List Tick
  current_swap : Option Tick
deriving DecidableEq

/-- The inner `while` of `read_next` (market_data_provider.py:145-147):
starting from the buffered swap tick `c` (whose timestamp the caller checked
to be `≤ spot_ts`), keep advancing the swap side while the buffered tick's
timestamp stays `≤ spot_ts`, remembering the last advanced tick as
`best_swap`.  Returns `(best_swap, new buffered tick, remaining swap list)`. -/
def scan_swap (spot_ts : ℚ) (c : Tick) : List Tick → Tick × Option Tick × List Tick
  | [] => (c, none, [])
  | n :: rest =>
    if n.timestamp ≤ spot_ts then scan_swap spot_ts n rest else (c, some n, rest)

/-- `read_next` (market_data_provider.py:132-150) on explicit components:
read the next spot tick (end the stream if none remains); skip it if no
buffered swap tick exists or the buffered one is already past it; otherwise
advance the swap side with `scan_swap` and emit `(best_swap, spot)`. -/
def read_next_aux : List Tick → List Tick → Option Tick → Option (Tick × Tick) × SyncState
  | [], swaps, cur => (none, ⟨[], swaps, cur⟩)
  | _ :: spots, swaps, none => read_next_aux spots swaps none
  | sp :: spots, swaps, some c =>
    if c.timestamp ≤ sp.timestamp then
      let r := scan_swap sp.timestamp c swaps
      (some (r.1, sp), ⟨spots, r.2.2, r.2.1⟩)
    else
      read_next_aux spots swaps (some c)

/-- `MarketDataProvider.read_next` as a state transformer. -/
def read_next (s : SyncState) : Option (Tick × Tick) × SyncState :=
  read_next_aux s.spots s.swaps s.current_swap

/-- The swap ticks still unread by the synchronizer: the buffered tick
followed by the untouched part of the swap pipeline. -/
def swap_avail (cur : Option Tick) (swaps : List Tick) : List Tick :=
  cur.toList ++ swaps

/-- Timestamp ordering of ticks within one source. -/
def TicksSorted (l : List Tick) : Prop :=
  List.Pairwise (fun a b => a.timestamp ≤ b.timestamp) l

lemma scan_swap_fst_le (q : ℚ) (c : Tick) (l : List Tick) (h : c.timestamp ≤ q) :
    (scan_swap q c l).1.timestamp ≤ q := by
  induction l generalizing c with
  | nil => simpa [scan_swap] using h
  | cons n rest ih =>
    by_cases hn : n.timestamp ≤ q
    · simpa [scan_swap, hn] using ih n hn
    · simpa [scan_swap, hn] using h

lemma scan_swap_rest_gt (q : ℚ) (c : Tick) (l : List Tick)
    (hs : TicksSorted (c :: l)) :
    ∀ t ∈ swap_avail (scan_swap q c l).2.1 (scan_swap q c l).2.2,
      q < t.timestamp := by
  induction l generalizing c with
  | nil => simp [scan_swap, swap_avail]
  | cons n rest ih =>
    rcases List.pairwise_cons.mp hs with ⟨_, hs'⟩
    by_cases hn : n.timestamp ≤ q
    · simpa [scan_swap, hn] using ih n hs'
    · intro t ht
      rcases List.pairwise_cons.mp hs' with ⟨hrest, _⟩
      simp [scan_swap, hn, swap_avail] at ht
      rcases ht with rfl | ht
      · exact lt_of_not_le hn
      · exact lt_of_lt_of_le (lt_of_not_le hn) (hrest t ht)

lemma read_next_aux_swap_le (spots swaps : List Tick) (cur : Option Tick)
    (sw sp : Tick) (s1 : SyncState)
    (h : read_next_aux spots swaps cur = (some (sw, sp), s1)) :
    sw.timestamp ≤ sp.timestamp := by
  induction spots generalizing cur with
  | nil => simp [read_next_aux] at h
  | cons sp0 spots ih =>
    cases cur with
    | none => exact ih none (by simpa [read_next_aux] using h)
    | some c =>
      by_cases hc : c.timestamp ≤ sp0.timestamp
      · simp only [read_next_aux, if_pos hc, Prod.mk.injEq, Option.some.injEq] at h
        obtain ⟨⟨rfl, rfl⟩, _⟩ := h
        exact scan_swap_fst_le _ _ _ hc
      · exact ih (some c) (by simpa [read_next_aux, hc] using h)

lemma read_next_aux_most_recent (spots swaps : List Tick) (cur : Option Tick)
    (sw sp : Tick) (s1 : SyncState)
    (hs : TicksSorted (swap_avail cur swaps))
    (h : read_next_aux spots swaps cur = (some (sw, sp), s1)) :
    ∀ t ∈ swap_avail s1.current_swap s1.swaps, sp.timestamp < t.timestamp := by
  induction spots generalizing cur with
  | nil => simp [read_next_aux] at h
  | cons sp0 spots ih =>
    cases cur with
    | none => exact ih none hs (by simpa [read_next_aux] using h)
    | some c =>
      by_cases hc : c.timestamp ≤ sp0.timestamp
      · simp only [read_next_aux, if_pos hc, Prod.mk.injEq, Option.some.injEq] at h
        obtain ⟨⟨rfl, rfl⟩, rfl⟩ := h
        exact scan_swap_rest_gt sp0.timestamp c swaps (by simpa [swap_avail] using hs)
      · exact ih (some c) hs (by simpa [read_next_aux, hc] using h)

lemma read_next_aux_skip (sp0 : Tick) (spots swaps : List Tick)
    (cur : Option Tick)
    (hskip : cur = none ∨ ∃ c, cur = some c ∧ sp0.timestamp < c.timestamp) :
    read_next_aux (sp0 :: spots) swaps cur = read_next_aux spots swaps cur := by
  rcases hskip with rfl | ⟨c, rfl, hc⟩
  · simp [read_next_aux]
  · simp [read_next_aux, not_le.mpr hc]

/-- C1 (hold-last-value invariant of the synchronizer's merge): every pair
emitted by `read_next` has `swap.timestamp ≤ spot.timestamp`; given that the
swap side is timestamp-ordered, the emitted swap tick is the most recent
qualifying one — every swap tick still unread after emission has timestamp
strictly beyond the emitted spot timestamp; and a spot tick for which no
qualifying swap tick is buffered is skipped, never emitted. -/
theorem read_next_hold_last_value :
    (∀ s sw sp s1, read_next s = (some (sw, sp), s1) →
      sw.timestamp ≤ sp.timestamp) ∧
    (∀ s sw sp s1, TicksSorted (swap_avail s.current_swap s.swaps) →
      read_next s = (some (sw, sp), s1) →
      ∀ t ∈ swap_avail s1.current_swap s1.swaps, sp.timestamp < t.timestamp) ∧
    (∀ sp0 spots swaps cur,
      (cur = none ∨ ∃ c, cur = some c ∧ sp0.timestamp < c.timestamp) →
      read_next ⟨sp0 :: spots, swaps, cur⟩ = read_next ⟨spots, swaps, cur⟩) := by
  refine ⟨?_, ?_, ?_⟩
  · intro s sw sp s1 h
    exact read_next_aux_swap_le s.spots s.swaps s.current_swap sw sp s1 h
  · intro s sw sp s1 hs h
    exact read_next_aux_most_recent s.spots s.swaps s.current_swap sw sp s1 hs h
  · intro sp0 spots swaps cur hskip
    exact read_next_aux_skip sp0 spots swaps cur hskip

/-- Witness for C1 at a concrete input: spot stream `[5, 6]`, swap stream
buffered `0` then `[6]`; the first emitted pair is `(0, 5)` and the unread
swap tick `6` is strictly beyond the spot timestamp `5`. -/
theorem read_next_hold_last_value_witness :
    (Tick.mk 0).timestamp ≤ (Tick.mk 5).timestamp ∧
    ∀ t ∈ swap_avail (some (Tick.mk 6)) [], (Tick.mk 5).timestamp < t.timestamp := by
  constructor
  · exact read_next_hold_last_value.1
      ⟨[Tick.mk 5, Tick.mk 6], [Tick.mk 6], some (Tick.mk 0)⟩
      (Tick.mk 0) (Tick.mk 5) ⟨[Tick.mk 6], [], some (Tick.mk 6)⟩ (by decide)
  · exact read_next_hold_last_value.2.1
      ⟨[Tick.mk 5, Tick.mk 6], [Tick.mk 6], some (Tick.mk 0)⟩
      (Tick.mk 0) (Tick.mk 5) ⟨[Tick.mk 6], [], some (Tick.mk 6)⟩
      (by constructor <;> decide) (by decide)

/-! ### Interval resampler (market_data_provider.py, `read_next_depth_by_interval`) -/

lemma read_next_aux_emit_length (spots swaps : List Tick) (cur : Option Tick)
    (p : Tick × Tick) (s1 : SyncState)
    (h : read_next_aux spots swaps cur = (some p, s1)) :
    s1.spots.length < spots.length := by
  induction spots generalizing cur with
  | nil => simp [read_next_aux] at h
  | cons sp0 spots ih =>
    cases cur with
    | none =>
      exact Nat.lt_succ_of_lt (ih none (by simpa [read_next_aux] using h))
    | some c =>
      by_cases hc : c.timestamp ≤ sp0.timestamp
      · simp only [read_next_aux, if_pos hc, Prod.mk.injEq] at h
        obtain ⟨_, rfl⟩ := h
        exact Nat.lt_succ_self _
      · exact Nat.lt_succ_of_lt (ih (some c) (by simpa [read_next_aux, hc] using h))

lemma read_next_emit_length (s : SyncState) (p : Tick × Tick) (s1 : SyncState)
    (h : read_next s = (some p, s1)) : s1.spots.length < s.spots.length :=
  read_next_aux_emit_length s.spots s.swaps s.current_swap p s1 h

/-- The `while True` of `read_next_depth_by_interval`
(market_data_provider.py:176-186): pull aligned pairs from `read_next` until
one whose swap timestamp reaches `target` appears, or the stream ends. -/
def read_until_target (target : ℚ) (s : SyncState) : Option (Tick × Tick) × SyncState :=
  match h : read_next s with
  | (none, s1) => (none, s1)
  | (some (sw, sp), s1) =>
    if target ≤ sw.timestamp then (some (sw, sp), s1)
    else read_until_target target s1
termination_by s.spots.length
decreasing_by exact read_next_emit_length s (sw, sp) s1 h

/-- Resampler state: the synchronizer plus `self.last_timestamp`. -/
structure ProviderState where
  sync : SyncState
  last_timestamp : Option ℚ
deriving DecidableEq

/-- `read_next_depth_by_interval` (market_data_provider.py:152-186): the
first call passes the first aligned pair through verbatim and records its
swap timestamp as the baseline; later calls pull pairs until one whose swap
timestamp reaches `last_timestamp + interval_ms / 1000`, emit it, and record
its swap timestamp. -/
def read_next_depth_by_interval (interval_ms : ℚ) (ps : ProviderState) :
    Option (Tick × Tick) × ProviderState :=
  match ps.last_timestamp with
  | none =>
    match read_next ps.sync with
    | (some (sw, sp), s1) => (some (sw, sp), ⟨s1, some sw.timestamp⟩)
    | (none, s1) => (none, ⟨s1, none⟩)
  | some last =>
    match read_until_target (last + interval_ms / 1000) ps.sync with
    | (some (sw, sp), s1) => (some (sw, sp), ⟨s1, some sw.timestamp⟩)
    | (none, s1) => (none, ⟨s1, some last⟩)

lemma read_until_target_ge (target : ℚ) (s : SyncState) (sw sp : Tick)
    (s1 : SyncState) (h : read_until_target target s = (some (sw, sp), s1)) :
    target ≤ sw.timestamp := by
  induction s using read_until_target.induct target with
  | case1 s s1' heq =>
    rw [read_until_target, heq] at h
    simp at h
  | case2 s sw' sp' s1' heq hge =>
    rw [read_until_target, heq] at h
    simp only [hge, if_true] at h
    obtain ⟨⟨rfl, rfl⟩, rfl⟩ := h
    exact hge
  | case3 s sw' sp' s1' heq hlt ih =>
    rw [read_until_target, heq] at h
    simp only [hlt, if_false] at h
    exact ih h

lemma read_next_depth_by_interval_second_step :
    read_next_depth_by_interval 2000
        ⟨⟨[Tick.mk 6], [], some (Tick.mk 6)⟩, some 0⟩
      = (some (Tick.mk 6, Tick.mk 6), ⟨⟨[], [], none⟩, some 6⟩) := by
  have h1 : read_next ⟨[Tick.mk 6], [], some (Tick.mk 6)⟩
      = (some (Tick.mk 6, Tick.mk 6), ⟨[], [], none⟩) := by decide
  rw [read_next_depth_by_interval]
  dsimp only
  rw [read_until_target, h1]
  norm_num

/-- C2 counterexample: the resampler spaces and records the *swap* tick
timestamps, not the spot timestamps the spec assigns to bars.  With spot
stream `[5, 6]`, swap stream `0` buffered then `[6]` and `interval_ms = 2000`,
two consecutive emissions carry spot timestamps `5` and `6`, violating
`t[i+1] ≥ t[i] + interval` as stated over bar (spot) timestamps. -/
theorem resampler_spot_spacing_counterexample :
    read_next_depth_by_interval 2000
        ⟨⟨[Tick.mk 5, Tick.mk 6], [Tick.mk 6], some (Tick.mk 0)⟩, none⟩
      = (some (Tick.mk 0, Tick.mk 5), ⟨⟨[Tick.mk 6], [], some (Tick.mk 6)⟩, some 0⟩) ∧
    read_next_depth_by_interval 2000
        ⟨⟨[Tick.mk 6], [], some (Tick.mk 6)⟩, some 0⟩
      = (some (Tick.mk 6, Tick.mk 6), ⟨⟨[], [], none⟩, some 6⟩) ∧
    ¬ ((Tick.mk 5).timestamp + 2000 / 1000 ≤ (Tick.mk 6).timestamp) :=
  ⟨by decide, read_next_depth_by_interval_second_step, by norm_num⟩

/-- C2 as amended: the spacing invariant holds for the timestamps the
resampler actually compares and records — the swap tick timestamps.  On every
non-first emission the emitted swap timestamp is at least
`last_timestamp + interval_ms / 1000` and becomes the new baseline; the first
emission passes the synchronizer's first pair through verbatim. -/
theorem resampler_swap_timestamp_spacing :
    (∀ interval_ms last sw sp s ps1,
      read_next_depth_by_interval interval_ms ⟨s, some last⟩ = (some (sw, sp), ps1) →
      last + interval_ms / 1000 ≤ sw.timestamp ∧
      ps1.last_timestamp = some sw.timestamp) ∧
    (∀ interval_ms sw sp s s1,
      read_next s = (some (sw, sp), s1) →
      read_next_depth_by_interval interval_ms ⟨s, none⟩
        = (some (sw, sp), ⟨s1, some sw.timestamp⟩)) := by
  constructor
  · intro interval_ms last sw sp s ps1 h
    rw [read_next_depth_by_interval] at h
    dsimp only at h
    rcases hr : read_until_target (last + interval_ms / 1000) s with ⟨r, s1⟩
    rw [hr] at h
    cases r with
    | none => simp at h
    | some p =>
      obtain ⟨psw, psp⟩ := p
      simp only [Prod.mk.injEq, Option.some.injEq] at h
      obtain ⟨⟨rfl, rfl⟩, rfl⟩ := h
      exact ⟨read_until_target_ge _ _ _ _ _ hr, rfl⟩
  · intro interval_ms sw sp s s1 h
    rw [read_next_depth_by_interval]
    dsimp only
    rw [h]

/-- Witness for the amended C2 theorem at a concrete input: with baseline 0
and `interval_ms = 2000`, the next emitted swap timestamp 6 satisfies
`0 + 2000 / 1000 ≤ 6`. -/
theorem resampler_swap_timestamp_spacing_witness :
    (0 : ℚ) + 2000 / 1000 ≤ (Tick.mk 6).timestamp ∧
    (ProviderState.mk ⟨[], [], none⟩ (some 6)).last_timestamp
      = some (Tick.mk 6).timestamp := by
  exact resampler_swap_timestamp_spacing.1 2000 0 (Tick.mk 6) (Tick.mk 6)
    ⟨[Tick.mk 6], [], some (Tick.mk 6)⟩ ⟨⟨[], [], none⟩, some 6⟩
    read_next_depth_by_interval_second_step

/-! ### Position ledger / strategy engine (trading_strategies.py)

`TradingStratsFirst` state, `Position`, and the ledger-mutating blocks of
`process_data` (open and close), `process_funding_fees`, and the end-of-day
forced liquidation performed in `Backtester.run_single_day`
(backtester.py:153-191).  Prices and money are exact rationals; timestamps
are integral epoch seconds. -/

inductive Side where
  | long
  | short
deriving DecidableEq

/-- `Position` (trading_strategies.py:7-40). -/
structure Position where
  position_type : Side
  entry_time : ℤ
  swap_price : ℚ
  spot_price : ℚ
  amount : ℚ
  position_id : ℕ
  funding_payments : List (ℤ × ℚ)
deriving DecidableEq

/-- `Position.calculate_pnl` (trading_strategies.py:42-58). -/
def calculate_pnl (p : Position) (exit_swap_price exit_spot_price : ℚ) : ℚ :=
  match p.position_type with
  | .long => (exit_spot_price - p.spot_price + (p.swap_price - exit_swap_price)) * p.amount
  | .short => (p.spot_price - exit_spot_price + (exit_swap_price - p.swap_price)) * p.amount

/-- The mutable state of one `TradingStratsFirst` instance
(trading_strategies.py:66-93 and 202-214). -/
structure Strat where
  initial_capital : ℚ
  capital : ℚ
  max_positions : ℕ
  fee_rate : ℚ
  funding_fee_enabled : Bool
  positions : List Position
  closed_positions : List Position
  next_position_id : ℕ
  total_pnl : ℚ
  total_fee : ℚ
  total_funding_fee : ℚ
  trade_count : ℕ
  win_count : ℕ
  current_position_type : Option Side
  last_entry_time : ℤ
deriving DecidableEq

/-- `TradingStratsFirst.__init__` (trading_strategies.py:66-93, 202-214). -/
def init_strategy (capital : ℚ) (max_positions : ℕ) (fee_rate : ℚ)
    (funding_fee_enabled : Bool) : Strat :=
  { initial_capital := capital
    capital := capital
    max_positions := max_positions
    fee_rate := fee_rate
    funding_fee_enabled := funding_fee_enabled
    positions := []
    closed_positions := []
    next_position_id := 1
    total_pnl := 0
    total_fee := 0
    total_funding_fee := 0
    trade_count := 0
    win_count := 0
    current_position_type := none
    last_entry_time := 0 }

/-- `get_position_size` (trading_strategies.py:95-102): per-position capital,
computed from the *initial* capital, never from the running capital. -/
def get_position_size (st : Strat) : ℚ :=
  st.initial_capital / st.max_positions

/-- `calculate_trade_amount` (trading_strategies.py:121-134). -/
def calculate_trade_amount (st : Strat) (swap_price spot_price : ℚ) : ℚ :=
  get_position_size st / max swap_price spot_price

/-- `TradingStratsFirst.can_open_position` (trading_strategies.py:216-234). -/
def can_open_position (st : Strat) (position_type : Side) : Bool :=
  if st.max_positions ≤ st.positions.length then false
  else
    match st.current_position_type with
    | some t => decide (t = position_type)
    | none => true

/-- The close branch of `TradingStratsFirst.process_data`
(trading_strategies.py:268-299): realize PnL, charge the round-trip fee,
update the counters, move the position to the closed list and clear the
direction lock when the open set becomes empty. -/
def process_data_close (st : Strat) (p : Position) (swap_price spot_price : ℚ) : Strat :=
  let pnl := calculate_pnl p swap_price spot_price
  let fee := (p.swap_price + p.spot_price + swap_price + spot_price) * p.amount * st.fee_rate
  let positions1 := st.positions.erase p
  { st with
    capital := st.capital + pnl - fee
    total_pnl := st.total_pnl + pnl
    total_fee := st.total_fee + fee
    trade_count := st.trade_count + 1
    win_count := if 0 < pnl then st.win_count + 1 else st.win_count
    closed_positions := st.closed_positions ++ [p]
    positions := positions1
    current_position_type := if positions1.isEmpty then none else st.current_position_type }

/-- The open branch of `TradingStratsFirst.process_data`
(trading_strategies.py:315-351): size the position, charge the entry fee,
append the position, set the direction lock and the last entry time. -/
def process_data_open (st : Strat) (position_type : Side) (ts : ℤ)
    (swap_price spot_price : ℚ) : Strat :=
  let amount := calculate_trade_amount st swap_price spot_price
  let p : Position :=
    { position_type := position_type
      entry_time := ts
      swap_price := swap_price
      spot_price := spot_price
      amount := amount
      position_id := st.next_position_id
      funding_payments := [] }
  let fee := (swap_price + spot_price) * amount * st.fee_rate
  { st with
    next_position_id := st.next_position_id + 1
    capital := st.capital - fee
    total_fee := st.total_fee + fee
    positions := st.positions ++ [p]
    current_position_type := some position_type
    last_entry_time := ts }

/-- One iteration of the forced-liquidation loop of
`Backtester.run_single_day` (backtester.py:166-188): same PnL, fee and
counter updates as the signal-driven close, but the direction lock
`current_position_type` is left untouched. -/
def force_liquidate_one (st : Strat) (p : Position) (swap_price spot_price : ℚ) : Strat :=
  let pnl := calculate_pnl p swap_price spot_price
  let fee := (p.swap_price + p.spot_price + swap_price + spot_price) * p.amount * st.fee_rate
  { st with
    capital := st.capital + pnl - fee
    total_pnl := st.total_pnl + pnl
    total_fee := st.total_fee + fee
    trade_count := st.trade_count + 1
    win_count := if 0 < pnl then st.win_count + 1 else st.win_count
    closed_positions := st.closed_positions ++ [p]
    positions := st.positions.erase p }

/-- End-of-day forced liquidation (backtester.py:153-191): iterate the close
body over a snapshot of the open positions at the last available prices. -/
def force_liquidate_all (st : Strat) (swap_price spot_price : ℚ) : Strat :=
  st.positions.foldl (fun s p => force_liquidate_one s p swap_price spot_price) st

/-- The signed funding payment of one position
(trading_strategies.py:153-160): longs pay a positive rate, shorts receive it. -/
def funding_fee_of (p : Position) (rate : ℚ) : ℚ :=
  match p.position_type with
  | .long => -(p.swap_price * p.amount * rate)
  | .short => p.swap_price * p.amount * rate

/-- The body of the per-position loop of `process_funding_fees`
(trading_strategies.py:151-167): accrue the signed funding payment to the
running capital and funding total and append it to the position's payment
log, for positions opened strictly before the settlement instant. -/
def funding_step (ts : ℤ) (rate : ℚ) (acc : ℚ × ℚ × List Position)
    (p : Position) : ℚ × ℚ × List Position :=
  if p.entry_time < ts then
    let fee := funding_fee_of p rate
    (acc.1 + fee, acc.2.1 + fee,
      acc.2.2 ++ [{ p with funding_payments := p.funding_payments ++ [(ts, fee)] }])
  else (acc.1, acc.2.1, acc.2.2 ++ [p])

/-- `process_funding_fees` (trading_strategies.py:136-167), folding
`funding_step` over the open positions exactly as the Python loop does.
The previous funding event lookup (`FeeRateProvider.get_prev_funding_rate`,
which returns either a timestamp-rate pair or `(None, None)`) is passed in
as a function.  The Python guard `if prev_ts and prev_ts == timestamp` also
checks the truthiness of `prev_ts`, hence the `prev_ts ≠ 0` conjunct. -/
def process_funding_fees (prev_funding : ℤ → Option (ℤ × ℚ)) (st : Strat)
    (ts : ℤ) : Strat :=
  if st.funding_fee_enabled = false ∨ st.positions = [] then st
  else
    match prev_funding ts with
    | none => st
    | some (prev_ts, prev_rate) =>
      if prev_ts ≠ 0 ∧ prev_ts = ts then
        let r := st.positions.foldl (funding_step ts prev_rate)
          (st.capital, st.total_funding_fee, [])
        { st with capital := r.1, total_funding_fee := r.2.1, positions := r.2.2 }
      else st

/-- A strategy state whose running capital (9000) has drifted away from the
initial capital (10000), with no open position. -/
def sample_strategy : Strat :=
  { initial_capital := 10000
    capital := 9000
    max_positions := 2
    fee_rate := 15 / 100000
    funding_fee_enabled := true
    positions := []
    closed_positions := []
    next_position_id := 1
    total_pnl := 0
    total_fee := 0
    total_funding_fee := 0
    trade_count := 0
    win_count := 0
    current_position_type := none
    last_entry_time := 0 }

/-- The position `process_data_open sample_strategy .long 1000 100 100`
creates: sized from the initial capital, `(10000 / 2) / 100 = 50`. -/
def sample_open_position : Position :=
  { position_type := .long
    entry_time := 1000
    swap_price := 100
    spot_price := 100
    amount := 50
    position_id := 1
    funding_payments := [] }

/-- A ledger state holding one open long position with the direction lock set. -/
def sample_locked_strategy : Strat :=
  { initial_capital := 10000
    capital := 9990
    max_positions := 2
    fee_rate := 15 / 100000
    funding_fee_enabled := true
    positions := [sample_open_position]
    closed_positions := []
    next_position_id := 2
    total_pnl := 0
    total_fee := 0
    total_funding_fee := 0
    trade_count := 0
    win_count := 0
    current_position_type := some .long
    last_entry_time := 1000 }

/-- C3 is a code bug: end-of-day forced liquidation
(`Backtester.run_single_day`, backtester.py:166-188) empties the open set but
never clears the direction lock `current_position_type`, while the
signal-driven close path (`process_data`, trading_strategies.py:293-299)
does clear it.  Evaluated at a state with one open long position. -/
theorem eod_liquidation_keeps_direction_lock :
    (force_liquidate_all sample_locked_strategy 100 100).positions = [] ∧
    (force_liquidate_all sample_locked_strategy 100 100).current_position_type
      = some Side.long ∧
    (process_data_close sample_locked_strategy sample_open_position 100 100).positions = [] ∧
    (process_data_close sample_locked_strategy sample_open_position 100 100).current_position_type
      = none := by
  decide

/-- C4 counterexample: with running capital 9000 drifted from initial capital
10000, the opened position is sized `50 = (10000 / 2) / 100` from the
*initial* capital, not `45 = (9000 / 2) / 100` from the capital at the moment
of entry as the claim states. -/
theorem position_sizing_counterexample :
    (process_data_open sample_strategy .long 1000 100 100).positions.map Position.amount
      = [50] ∧
    ¬ ((50 : ℚ) = sample_strategy.capital / sample_strategy.max_positions / max 100 100) := by
  constructor
  · simp [process_data_open, calculate_trade_amount, get_position_size, sample_strategy]
    norm_num
  · simp only [sample_strategy, max_self]
    norm_num

/-- C4 as amended: every position opened by the open branch of `process_data`
is sized `(initial_capital / max_positions) / max(swap_price, spot_price)`,
where `initial_capital` is the construction-time capital
(`get_position_size` reads `self.initial_capital`), not the running capital. -/
theorem position_sizing_initial_capital (st : Strat) (position_type : Side)
    (ts : ℤ) (swap_price spot_price : ℚ) (p : Position)
    (hp : p ∈ (process_data_open st position_type ts swap_price spot_price).positions)
    (hnew : p ∉ st.positions) :
    p.amount = st.initial_capital / st.max_positions / max swap_price spot_price := by
  simp only [process_data_open, List.mem_append, List.mem_singleton] at hp
  rcases hp with hp | rfl
  · exact absurd hp hnew
  · rfl

/-- Witness for the amended C4 theorem at `sample_strategy`. -/
theorem position_sizing_initial_capital_witness :
    sample_open_position.amount
      = sample_strategy.initial_capital / sample_strategy.max_positions / max 100 100 :=
  position_sizing_initial_capital sample_strategy .long 1000 100 100
    sample_open_position
    (by simp [process_data_open, calculate_trade_amount, get_position_size,
        sample_strategy, sample_open_position]
        norm_num)
    (by simp [sample_strategy])

/-- C8: a position opened and later closed at the same swap/spot prices has
zero price PnL, and the round trip changes capital by exactly minus the total
fees (entry fee plus round-trip exit fee). -/
theorem round_trip_pnl_is_minus_fees (st : Strat) (position_type : Side)
    (ts : ℤ) (swap_price spot_price : ℚ) (p : Position)
    (hp : (process_data_open st position_type ts swap_price spot_price).positions
      = st.positions ++ [p]) :
    calculate_pnl p swap_price spot_price = 0 ∧
    (process_data_close (process_data_open st position_type ts swap_price spot_price)
        p swap_price spot_price).capital
      = st.capital
        - ((swap_price + spot_price) * p.amount * st.fee_rate
          + (p.swap_price + p.spot_price + swap_price + spot_price) * p.amount * st.fee_rate) := by
  simp only [process_data_open] at hp
  have hp' := List.append_cancel_left hp
  obtain rfl := (List.cons.injEq _ _ _ _).mp hp' |>.1 |>.symm
  constructor
  · cases position_type <;> simp [calculate_pnl] <;> ring
  · cases position_type <;>
      simp [process_data_close, process_data_open, calculate_pnl,
        calculate_trade_amount, get_position_size] <;> ring

/-- Witness for C8 at `sample_strategy`: the round trip at swap = spot = 100
loses exactly the fees. -/
theorem round_trip_pnl_is_minus_fees_witness :
    calculate_pnl sample_open_position 100 100 = 0 ∧
    (process_data_close (process_data_open sample_strategy .long 1000 100 100)
        sample_open_position 100 100).capital
      = sample_strategy.capital
        - ((100 + 100) * sample_open_position.amount * sample_strategy.fee_rate
          + (sample_open_position.swap_price + sample_open_position.spot_price + 100 + 100)
            * sample_open_position.amount * sample_strategy.fee_rate) :=
  round_trip_pnl_is_minus_fees sample_strategy .long 1000 100 100
    sample_open_position
    (by simp [process_data_open, calculate_trade_amount, get_position_size,
        sample_strategy, sample_open_position]
        norm_num)

/-! ### Signal engine (trading_signals.py, `TradingSignalFirst`)

The signal functions read the latest bar's timestamp and prices and query
`FeeRateProvider.get_next_funding_rate`, whose Python return value is the
pair `(next_ts, next_rate)` — `(None, None)` when nothing is found.  That
pair is a nonempty tuple and therefore always truthy, which matters below.
Python runtime errors (`ZeroDivisionError` from the ratio, `TypeError` from
comparing `None` with `0`) are modelled with `Except`. -/

inductive PyError where
  | zeroDivisionError
  | typeError
deriving DecidableEq

/-- Threshold constants (trading_signals.py:61-78). -/
def short_in_threshold : ℚ := 1.000758

def short_out_threshold : ℚ := 0.999999

def long_in_threshold : ℚ := 0.999000

def long_out_threshold : ℚ := 1.000001

def short_in_threshold_near_positive_fee : ℚ := 1.000500

def short_out_threshold_near_positive_fee : ℚ := 0.999750

def long_in_threshold_near_negative_fee : ℚ := 0.998750

def long_out_threshold_near_negative_fee : ℚ := 1.000250

/-- `_is_near_settlement` (trading_signals.py:84-95). -/
def is_near_settlement (timestamp : ℤ) : Bool :=
  28000 < timestamp % 28800

/-- Python division: raises `ZeroDivisionError` on a zero denominator. -/
def py_div (a b : ℚ) : Except PyError ℚ :=
  if b = 0 then .error .zeroDivisionError else .ok (a / b)

/-- Python `x > 0` where `x` may be `None`: comparing `None` with an int
raises `TypeError`. -/
def py_gt_zero : Option ℚ → Except PyError Bool
  | some r => .ok (decide (0 < r))
  | none => .error .typeError

/-- Python `x < 0` where `x` may be `None`. -/
def py_lt_zero : Option ℚ → Except PyError Bool
  | some r => .ok (decide (r < 0))
  | none => .error .typeError

/-- `get_entry_signal` (trading_signals.py:109-150).  `next_funding` stands
for `self._get_next_funding`; its result pair is always truthy, so the
branch condition `is_near_settlement and next_funding` reduces to
`is_near_settlement`, and inside that branch `funding_rate > 0` is evaluated
even when the rate is `None`. -/
def get_entry_signal (next_funding : ℤ → Option ℤ × Option ℚ) (timestamp : ℤ)
    (swap_price spot_price : ℚ) : Except PyError ℤ := do
  let ratio_short ← py_div swap_price spot_price
  let ratio_long ← py_div swap_price spot_price
  let nf := next_funding timestamp
  if is_near_settlement timestamp then
    let positive ← py_gt_zero nf.2
    if positive then
      if short_in_threshold_near_positive_fee < ratio_short then pure (-1) else pure 0
    else
      if ratio_long < long_in_threshold_near_negative_fee then pure 1 else pure 0
  else
    if short_in_threshold < ratio_short then pure (-1)
    else if ratio_long < long_in_threshold then pure 1
    else pure 0

/-- `get_exit_signal` (trading_signals.py:152-194); the threshold selection
`... if is_near_settlement and next_funding and next_funding[1] > 0 else ...`
evaluates `None > 0` whenever near settlement with an empty lookup result. -/
def get_exit_signal (next_funding : ℤ → Option ℤ × Option ℚ) (timestamp : ℤ)
    (swap_price spot_price : ℚ) (position_type : Side) : Except PyError ℤ := do
  let nf := next_funding timestamp
  match position_type with
  | .short => do
    let r ← py_div swap_price spot_price
    let near ← if is_near_settlement timestamp then py_gt_zero nf.2 else pure false
    let threshold := if near then short_out_threshold_near_positive_fee else short_out_threshold
    if r < threshold then pure 1 else pure 0
  | .long => do
    let r ← py_div swap_price spot_price
    let near ← if is_near_settlement timestamp then py_lt_zero nf.2 else pure false
    let threshold := if near then long_out_threshold_near_negative_fee else long_out_threshold
    if threshold < r then pure 1 else pure 0

/-- C5 is a code bug: near settlement (timestamp 28001, since
`28001 % 28800 = 28001 > 28000`) with a funding lookup returning
`(None, None)`, both signal functions evaluate `None > 0` (resp. `None < 0`)
and raise `TypeError` instead of falling back to the ordinary thresholds:
the truthiness test `if is_near_settlement and next_funding` cannot reject
the always-truthy tuple `(None, None)`. -/
theorem near_settlement_missing_funding_raises :
    get_entry_signal (fun _ => (none, none)) 28001 30000 30000
      = .error .typeError ∧
    get_exit_signal (fun _ => (none, none)) 28001 30000 30000 .short
      = .error .typeError ∧
    get_exit_signal (fun _ => (none, none)) 28001 30000 30000 .long
      = .error .typeError := by
  refine ⟨?_, ?_, ?_⟩ <;>
    simp [get_entry_signal, get_exit_signal, py_div, py_gt_zero, py_lt_zero,
      is_near_settlement, bind, Except.bind]

/-- C9 is a code bug: the ratio `swap_price / spot_price` is computed
unconditionally (trading_signals.py:127, 178, 187), so a zero spot price
raises `ZeroDivisionError` in both signal functions, and a zero swap price
is not skipped either — it yields an ordinary long entry signal
(`0 < long_in_threshold`); no zero-price guard exists. -/
theorem zero_price_reaches_division :
    get_entry_signal (fun _ => (none, none)) 1000 30000 0
      = .error .zeroDivisionError ∧
    get_exit_signal (fun _ => (none, none)) 1000 30000 0 .short
      = .error .zeroDivisionError ∧
    get_exit_signal (fun _ => (none, none)) 1000 30000 0 .long
      = .error .zeroDivisionError ∧
    get_entry_signal (fun _ => (none, none)) 1000 0 30000 = .ok 1 := by
  refine ⟨?_, ?_, ?_, ?_⟩ <;>
    simp [get_entry_signal, get_exit_signal, py_div, py_gt_zero, py_lt_zero,
      is_near_settlement, short_in_threshold, long_in_threshold,
      bind, Except.bind, pure, Except.pure] <;>
    norm_num

/-! ### Funding-rate temporal index (fee_rate_provider.py, `FeeRateProvider`)

`get_daily_funding_rates` materializes, per calendar date (Asia/Shanghai,
UTC+8), an immutable mapping of event timestamp to rate; it is modelled as a
function from the day index to the day's event list (in dict iteration
order).  `get_next_funding_rate` scans the query's own date and, on failure,
exactly one following date. -/

/-- Millisecond normalization (fee_rate_provider.py:184-186):
`int(timestamp / 1000)` for values beyond `1e12`. -/
def normalize_ts (timestamp : ℤ) : ℤ :=
  if 10 ^ 12 < timestamp then timestamp / 1000 else timestamp

/-- The calendar date of an epoch-second timestamp as
`datetime.fromtimestamp(ts, Asia/Shanghai).strftime('%Y-%m-%d')` computes it:
the day index since the epoch in the fixed UTC+8 zone. -/
def date_of (ts : ℤ) : ℤ :=
  Int.fdiv (ts + 8 * 3600) 86400

/-- The first scan of `get_next_funding_rate` (fee_rate_provider.py:201-204):
fold over the day's events keeping the smallest timestamp strictly greater
than the query. -/
def next_scan (q : ℤ) : List (ℤ × ℚ) → Option (ℤ × ℚ) → Option (ℤ × ℚ)
  | [], acc => acc
  | e :: rest, acc =>
    match acc with
    | none => next_scan q rest (if q < e.1 then some e else none)
    | some a => next_scan q rest (if q < e.1 ∧ e.1 < a.1 then some e else some a)

/-- The fallback scan of `get_next_funding_rate`
(fee_rate_provider.py:212-215): fold over the following day's events keeping
the smallest timestamp, with no strictly-greater filter. -/
def min_scan : List (ℤ × ℚ) → Option (ℤ × ℚ) → Option (ℤ × ℚ)
  | [], acc => acc
  | e :: rest, acc =>
    match acc with
    | none => min_scan rest (some e)
    | some a => min_scan rest (if e.1 < a.1 then some e else some a)

/-- `get_next_funding_rate` (fee_rate_provider.py:173-217): normalize the
timestamp, scan the query date's events for the minimal timestamp strictly
greater than the query; if none, take the minimal event of exactly the next
date; if that date has no events, return `(None, None)`. -/
def get_next_funding_rate (cache : ℤ → List (ℤ × ℚ)) (timestamp : ℤ) :
    Option ℤ × Option ℚ :=
  let ts := normalize_ts timestamp
  let d := date_of ts
  match next_scan ts (cache d) none with
  | some e => (some e.1, some e.2)
  | none =>
    match min_scan (cache (d + 1)) none with
    | some e => (some e.1, some e.2)
    | none => (none, none)

lemma next_scan_eq_none (q : ℤ) (l : List (ℤ × ℚ)) (acc : Option (ℤ × ℚ)) :
    next_scan q l acc = none ↔ acc = none ∧ ∀ e ∈ l, e.1 ≤ q := by
  induction l generalizing acc with
  | nil => simp [next_scan]
  | cons e rest ih =>
    cases acc with
    | none =>
      by_cases hq : q < e.1
      · simp only [next_scan, if_pos hq, ih]
        simp [not_le.mpr hq]
      · simp only [next_scan, if_neg hq, ih]
        simp [not_lt.mp hq]
    | some a =>
      simp only [next_scan, ih]
      split <;> simp

lemma next_scan_spec (q : ℤ) (l : List (ℤ × ℚ)) (acc : Option (ℤ × ℚ))
    (x : ℤ × ℚ) (h : next_scan q l acc = some x) :
    ((x ∈ l ∧ q < x.1) ∨ acc = some x) ∧
    (∀ e ∈ l, q < e.1 → x.1 ≤ e.1) ∧
    (∀ a, acc = some a → x.1 ≤ a.1) := by
  induction l generalizing acc with
  | nil =>
    simp only [next_scan] at h
    refine ⟨Or.inr h, by simp, ?_⟩
    intro a ha
    rw [h] at ha
    exact le_of_eq (congrArg Prod.fst (Option.some.inj ha))
  | cons e rest ih =>
    cases acc with
    | none =>
      by_cases hq : q < e.1
      · rw [next_scan, if_pos hq] at h
        obtain ⟨hmem, hmin, hacc⟩ := ih (some e) h
        refine ⟨?_, ?_, by simp⟩
        · rcases hmem with ⟨hx, hqx⟩ | hx
          · exact Or.inl ⟨List.mem_cons_of_mem e hx, hqx⟩
          · obtain rfl := Option.some.injEq _ _ ▸ hx
            exact Or.inl ⟨List.mem_cons_self e rest, hq⟩
        · intro e' he' hqe'
          rcases List.mem_cons.mp he' with rfl | he'
          · exact hacc e' rfl
          · exact hmin e' he' hqe'
      · rw [next_scan, if_neg hq] at h
        obtain ⟨hmem, hmin, _⟩ := ih none h
        refine ⟨?_, ?_, by simp⟩
        · rcases hmem with ⟨hx, hqx⟩ | hx
          · exact Or.inl ⟨List.mem_cons_of_mem e hx, hqx⟩
          · simp at hx
        · intro e' he' hqe'
          rcases List.mem_cons.mp he' with rfl | he'
          · exact absurd hqe' hq
          · exact hmin e' he' hqe'
    | some a =>
      by_cases hc : q < e.1 ∧ e.1 < a.1
      · rw [next_scan] at h
        simp only [if_pos hc] at h
        obtain ⟨hmem, hmin, hacc⟩ := ih (some e) h
        have hxe : x.1 ≤ e.1 := hacc e rfl
        refine ⟨?_, ?_, ?_⟩
        · rcases hmem with ⟨hx, hqx⟩ | hx
          · exact Or.inl ⟨List.mem_cons_of_mem e hx, hqx⟩
          · obtain rfl := Option.some.injEq _ _ ▸ hx
            exact Or.inl ⟨List.mem_cons_self e rest, hc.1⟩
        · intro e' he' hqe'
          rcases List.mem_cons.mp he' with rfl | he'
          · exact hxe
          · exact hmin e' he' hqe'
        · intro a' ha'
          obtain rfl := Option.some.injEq _ _ ▸ ha'
          exact le_of_lt (lt_of_le_of_lt hxe hc.2)
      · rw [next_scan] at h
        simp only [if_neg hc] at h
        obtain ⟨hmem, hmin, hacc⟩ := ih (some a) h
        have hxa : x.1 ≤ a.1 := hacc a rfl
        refine ⟨?_, ?_, ?_⟩
        · rcases hmem with ⟨hx, hqx⟩ | hx
          · exact Or.inl ⟨List.mem_cons_of_mem e hx, hqx⟩
          · exact Or.inr hx
        · intro e' he' hqe'
          rcases List.mem_cons.mp he' with rfl | he'
          · have hae : a.1 ≤ e'.1 := le_of_not_lt (fun hlt => hc ⟨hqe', hlt⟩)
            exact le_trans hxa hae
          · exact hmin e' he' hqe'
        · intro a' ha'
          obtain rfl := Option.some.injEq _ _ ▸ ha'
          exact hxa

lemma min_scan_eq_none (l : List (ℤ × ℚ)) (acc : Option (ℤ × ℚ)) :
    min_scan l acc = none ↔ acc = none ∧ l = [] := by
  induction l generalizing acc with
  | nil => simp [min_scan]
  | cons e rest ih =>
    cases acc with
    | none => simp [min_scan, ih]
    | some a =>
      rw [min_scan]
      split <;> simp [ih]

lemma min_scan_spec (l : List (ℤ × ℚ)) (acc : Option (ℤ × ℚ))
    (x : ℤ × ℚ) (h : min_scan l acc = some x) :
    (x ∈ l ∨ acc = some x) ∧
    (∀ e ∈ l, x.1 ≤ e.1) ∧
    (∀ a, acc = some a → x.1 ≤ a.1) := by
  induction l generalizing acc with
  | nil =>
    simp only [min_scan] at h
    refine ⟨Or.inr h, by simp, ?_⟩
    intro a ha
    rw [h] at ha
    exact le_of_eq (congrArg Prod.fst (Option.some.inj ha))
  | cons e rest ih =>
    cases acc with
    | none =>
      rw [min_scan] at h
      obtain ⟨hmem, hmin, hacc⟩ := ih (some e) h
      have hxe : x.1 ≤ e.1 := hacc e rfl
      refine ⟨?_, ?_, by simp⟩
      · rcases hmem with hx | hx
        · exact Or.inl (List.mem_cons_of_mem e hx)
        · obtain rfl := Option.some.injEq _ _ ▸ hx
          exact Or.inl (List.mem_cons_self e rest)
      · intro e' he'
        rcases List.mem_cons.mp he' with rfl | he'
        · exact hxe
        · exact hmin e' he'
    | some a =>
      by_cases hc : e.1 < a.1
      · rw [min_scan] at h
        simp only [if_pos hc] at h
        obtain ⟨hmem, hmin, hacc⟩ := ih (some e) h
        have hxe : x.1 ≤ e.1 := hacc e rfl
        refine ⟨?_, ?_, ?_⟩
        · rcases hmem with hx | hx
          · exact Or.inl (List.mem_cons_of_mem e hx)
          · obtain rfl := Option.some.injEq _ _ ▸ hx
            exact Or.inl (List.mem_cons_self e rest)
        · intro e' he'
          rcases List.mem_cons.mp he' with rfl | he'
          · exact hxe
          · exact hmin e' he'
        · intro a' ha'
          obtain rfl := Option.some.injEq _ _ ▸ ha'
          exact le_of_lt (lt_of_le_of_lt hxe hc)
      · rw [min_scan] at h
        simp only [if_neg hc] at h
        obtain ⟨hmem, hmin, hacc⟩ := ih (some a) h
        have hxa : x.1 ≤ a.1 := hacc a rfl
        refine ⟨?_, ?_, ?_⟩
        · rcases hmem with hx | hx
          · exact Or.inl (List.mem_cons_of_mem e hx)
          · exact Or.inr hx
        · intro e' he'
          rcases List.mem_cons.mp he' with rfl | he'
          · exact le_trans hxa (le_of_not_lt hc)
          · exact hmin e' he'
        · intro a' ha'
          obtain rfl := Option.some.injEq _ _ ▸ ha'
          exact hxa

/-- A cache whose query date (day 0) has only an event at timestamp 10,
whose following date (day 1) is empty, and whose day 2 does hold an event. -/
def sample_funding_cache : ℤ → List (ℤ × ℚ) :=
  fun d => if d = 0 then [(10, 3)] else if d = 2 then [(200000, 5)] else []

/-- A cache whose query date (day 0) has only an event at timestamp 10 and
whose following date (day 1) holds an event at timestamp 100000. -/
def sample_funding_cache2 : ℤ → List (ℤ × ℚ) :=
  fun d => if d = 0 then [(10, 3)] else if d = 1 then [(100000, 7)] else []

/-- C6 counterexample: querying timestamp 20 (day 0) against
`sample_funding_cache`, the own date has no event beyond 20 and day 1 holds
zero events, so `get_next_funding_rate` returns `(None, None)` even though
day 2 holds the event `(200000, …)` with `20 < 200000` — the search does not
continue past the immediately following date as the claim states. -/
theorem next_funding_lookup_counterexample :
    get_next_funding_rate sample_funding_cache 20 = (none, none) ∧
    (200000, (5 : ℚ)) ∈ sample_funding_cache (date_of 20 + 2) ∧
    (20 : ℤ) < 200000 := by
  refine ⟨by decide, ?_, by decide⟩
  have : date_of 20 = 0 := by decide
  rw [this]
  decide

/-- C6 as amended: `get_next_funding_rate` returns the minimal cached event
timestamp strictly greater than the (normalized) query among the query
date's events; if that date holds no such event it takes the minimal event
of exactly the immediately following date's cache (with no
strictly-greater filter); and it returns `(None, None)` precisely when the
own date has no event beyond the query and the following date's cache is
empty — the search never reaches further days. -/
theorem next_funding_lookup_one_day_lookahead (cache : ℤ → List (ℤ × ℚ))
    (timestamp : ℤ) :
    (∀ t r, get_next_funding_rate cache timestamp = (some t, some r) →
      ((t, r) ∈ cache (date_of (normalize_ts timestamp)) ∧
        normalize_ts timestamp < t ∧
        (∀ e ∈ cache (date_of (normalize_ts timestamp)),
          normalize_ts timestamp < e.1 → t ≤ e.1))
      ∨ ((∀ e ∈ cache (date_of (normalize_ts timestamp)), e.1 ≤ normalize_ts timestamp) ∧
        (t, r) ∈ cache (date_of (normalize_ts timestamp) + 1) ∧
        (∀ e ∈ cache (date_of (normalize_ts timestamp) + 1), t ≤ e.1))) ∧
    (get_next_funding_rate cache timestamp = (none, none) ↔
      (∀ e ∈ cache (date_of (normalize_ts timestamp)), e.1 ≤ normalize_ts timestamp) ∧
      cache (date_of (normalize_ts timestamp) + 1) = []) := by
  constructor
  · intro t r h
    rw [get_next_funding_rate] at h
    rcases hn : next_scan (normalize_ts timestamp)
        (cache (date_of (normalize_ts timestamp))) none with _ | x
    · rw [hn] at h
      rcases hm : min_scan (cache (date_of (normalize_ts timestamp) + 1)) none with _ | y
      · rw [hm] at h
        simp at h
      · rw [hm] at h
        simp only [Prod.mk.injEq, Option.some.injEq] at h
        obtain ⟨rfl, rfl⟩ := h
        obtain ⟨hmem, hmin, _⟩ := min_scan_spec _ _ _ hm
        refine Or.inr ⟨(next_scan_eq_none _ _ _).mp hn |>.2, ?_, hmin⟩
        rcases hmem with hy | hy
        · simpa using hy
        · simp at hy
    · rw [hn] at h
      simp only [Prod.mk.injEq, Option.some.injEq] at h
      obtain ⟨rfl, rfl⟩ := h
      obtain ⟨hmem, hmin, _⟩ := next_scan_spec _ _ _ _ hn
      rcases hmem with ⟨hx, hqx⟩ | hx
      · exact Or.inl ⟨by simpa using hx, hqx, hmin⟩
      · simp at hx
  · rw [get_next_funding_rate]
    constructor
    · intro h
      rcases hn : next_scan (normalize_ts timestamp)
          (cache (date_of (normalize_ts timestamp))) none with _ | x
      · rw [hn] at h
        rcases hm : min_scan (cache (date_of (normalize_ts timestamp) + 1)) none with _ | y
        · exact ⟨(next_scan_eq_none _ _ _).mp hn |>.2,
            ((min_scan_eq_none _ _).mp hm).2⟩
        · rw [hm] at h
          simp at h
      · rw [hn] at h
        simp at h
    · rintro ⟨hno, hempty⟩
      have hn : next_scan (normalize_ts timestamp)
          (cache (date_of (normalize_ts timestamp))) none = none :=
        (next_scan_eq_none _ _ _).mpr ⟨rfl, hno⟩
      have hm : min_scan (cache (date_of (normalize_ts timestamp) + 1)) none = none :=
        (min_scan_eq_none _ _).mpr ⟨rfl, hempty⟩
      rw [hn, hm]

/-- Witness for the amended C6 theorem: querying timestamp 20 against
`sample_funding_cache2` falls back to day 1 and returns its minimal event
`(100000, 7)`. -/
theorem next_funding_lookup_one_day_lookahead_witness :
    ((100000, (7 : ℚ)) ∈ sample_funding_cache2 (date_of (normalize_ts 20)) ∧
      normalize_ts 20 < 100000 ∧
      (∀ e ∈ sample_funding_cache2 (date_of (normalize_ts 20)),
        normalize_ts 20 < e.1 → 100000 ≤ e.1))
    ∨ ((∀ e ∈ sample_funding_cache2 (date_of (normalize_ts 20)), e.1 ≤ normalize_ts 20) ∧
      (100000, (7 : ℚ)) ∈ sample_funding_cache2 (date_of (normalize_ts 20) + 1) ∧
      (∀ e ∈ sample_funding_cache2 (date_of (normalize_ts 20) + 1), 100000 ≤ e.1)) :=
  (next_funding_lookup_one_day_lookahead sample_funding_cache2 20).1
    100000 7 (by decide)

/-! ### Funding accrual (C7) -/

lemma funding_fold_spec (ts : ℤ) (rate : ℚ) (l : List Position)
    (c t : ℚ) (acc : List Position) :
    l.foldl (funding_step ts rate) (c, t, acc) =
      (c + ((l.filter fun p => decide (p.entry_time < ts)).map
          fun p => funding_fee_of p rate).sum,
       t + ((l.filter fun p => decide (p.entry_time < ts)).map
          fun p => funding_fee_of p rate).sum,
       acc ++ l.map fun p =>
         if p.entry_time < ts then
           { p with funding_payments := p.funding_payments ++ [(ts, funding_fee_of p rate)] }
         else p) := by
  induction l generalizing c t acc with
  | nil => simp
  | cons p l ih =>
    by_cases hp : p.entry_time < ts
    · simp [funding_step, hp, ih, add_assoc]
    · simp [funding_step, hp, ih]

/-- C7: when funding is enabled and the previous-funding lookup yields an
event whose timestamp equals the (nonzero) bar timestamp, each open position
opened strictly before that instant accrues exactly one signed payment —
`-swap_price*amount*rate` for a long, `+swap_price*amount*rate` for a short —
which is summed into capital and into the lifetime funding total and
appended to that position's payment log; positions opened at or after the
instant are unchanged.  When the lookup yields nothing or an event at a
different timestamp, the whole state is unchanged. -/
theorem funding_accrual_at_settlement (prev_funding : ℤ → Option (ℤ × ℚ))
    (st : Strat) (ts : ℤ) (rate : ℚ)
    (hen : st.funding_fee_enabled = true)
    (hl : prev_funding ts = some (ts, rate))
    (hts : ts ≠ 0) :
    ((process_funding_fees prev_funding st ts).capital
        = st.capital + ((st.positions.filter fun p => decide (p.entry_time < ts)).map
            fun p => funding_fee_of p rate).sum ∧
      (process_funding_fees prev_funding st ts).total_funding_fee
        = st.total_funding_fee
          + ((st.positions.filter fun p => decide (p.entry_time < ts)).map
            fun p => funding_fee_of p rate).sum ∧
      (process_funding_fees prev_funding st ts).positions
        = st.positions.map fun p =>
            if p.entry_time < ts then
              { p with funding_payments :=
                  p.funding_payments ++ [(ts, funding_fee_of p rate)] }
            else p) ∧
    (∀ p ∈ st.positions,
      (p.position_type = .long →
        funding_fee_of p rate = -(p.swap_price * p.amount * rate)) ∧
      (p.position_type = .short →
        funding_fee_of p rate = p.swap_price * p.amount * rate)) ∧
    (∀ g : ℤ → Option (ℤ × ℚ), g ts = none →
      process_funding_fees g st ts = st) ∧
    (∀ g : ℤ → Option (ℤ × ℚ), ∀ prev_ts prev_rate,
      g ts = some (prev_ts, prev_rate) → prev_ts ≠ ts →
      process_funding_fees g st ts = st) := by
  refine ⟨?_, ?_, ?_, ?_⟩
  · by_cases hpos : st.positions = []
    · simp [process_funding_fees, hpos]
    · have hcond : ¬ (st.funding_fee_enabled = false ∨ st.positions = []) := by
        simp [hen, hpos]
      rw [process_funding_fees, if_neg hcond, hl]
      dsimp only
      rw [if_pos (⟨hts, rfl⟩ : ts ≠ 0 ∧ ts = ts), funding_fold_spec]
      exact ⟨rfl, rfl, rfl⟩
  · intro p _
    constructor
    · intro hlong
      simp [funding_fee_of, hlong]
    · intro hshort
      simp [funding_fee_of, hshort]
  · intro g hg
    rw [process_funding_fees, hg]
    split <;> rfl
  · intro g prev_ts prev_rate hg hne
    have hcne : ¬ (prev_ts ≠ 0 ∧ prev_ts = ts) := fun hand => hne hand.2
    rw [process_funding_fees, hg]
    split
    · rfl
    · dsimp only
      rw [if_neg hcne]

/-- The previous-funding lookup used by the C7 witness: an event at
timestamp 28800 with rate 3. -/
def sample_prev_funding : ℤ → Option (ℤ × ℚ) :=
  fun t => if t = 28800 then some (28800, 3) else none

/-- Witness for C7: at the settlement instant 28800, the single long
position of `sample_locked_strategy` (swap entry 100, size 50, opened at
1000 < 28800) accrues `-(100 * 50 * 3) = -15000`, taking capital from 9990
to `9990 - 15000`. -/
theorem funding_accrual_at_settlement_witness :
    (process_funding_fees sample_prev_funding sample_locked_strategy 28800).capital
      = 9990 - 15000 := by
  have h := (funding_accrual_at_settlement sample_prev_funding
    sample_locked_strategy 28800 3 rfl (by decide) (by decide)).1.1
  rw [h]
  norm_num [sample_locked_strategy, sample_open_position, funding_fee_of]

/-! ### Win rate (backtester.py)

`run_single_day` (backtester.py:197) and `run` (backtester.py:264) both
compute `win_rate = win_count / max(1, trade_count)` on the shared strategy
state.  The ledger states such a run can produce are captured by a step
relation over the state-mutating operations embedded above. -/

/-- `self.strategy.win_count / max(1, self.strategy.trade_count)`
(backtester.py:197 and 264); Python `/` on ints is exact here since the
counters are embedded into ℚ. -/
def win_rate (st : Strat) : ℚ :=
  (st.win_count : ℚ) / ((max 1 st.trade_count : ℕ) : ℚ)

/-- One ledger-mutating operation of a backtest run. -/
inductive LedgerStep : Strat → Strat → Prop where
  | open_position (st : Strat) (position_type : Side) (ts : ℤ)
      (swap_price spot_price : ℚ) :
      LedgerStep st (process_data_open st position_type ts swap_price spot_price)
  | close_position (st : Strat) (p : Position) (swap_price spot_price : ℚ) :
      LedgerStep st (process_data_close st p swap_price spot_price)
  | funding (st : Strat) (prev_funding : ℤ → Option (ℤ × ℚ)) (ts : ℤ) :
      LedgerStep st (process_funding_fees prev_funding st ts)
  | liquidate (st : Strat) (swap_price spot_price : ℚ) :
      LedgerStep st (force_liquidate_all st swap_price spot_price)

lemma process_funding_fees_counters (g : ℤ → Option (ℤ × ℚ)) (st : Strat)
    (ts : ℤ) :
    (process_funding_fees g st ts).trade_count = st.trade_count ∧
    (process_funding_fees g st ts).win_count = st.win_count := by
  rw [process_funding_fees]
  split
  · exact ⟨rfl, rfl⟩
  · rcases g ts with _ | ⟨prev_ts, prev_rate⟩
    · exact ⟨rfl, rfl⟩
    · dsimp only
      split <;> exact ⟨rfl, rfl⟩

lemma force_liquidate_fold_invariant (swap_price spot_price : ℚ)
    (l : List Position) (s : Strat) (h : s.win_count ≤ s.trade_count) :
    (l.foldl (fun s p => force_liquidate_one s p swap_price spot_price) s).win_count
      ≤ (l.foldl (fun s p => force_liquidate_one s p swap_price spot_price) s).trade_count := by
  induction l generalizing s with
  | nil => exact h
  | cons p l ih =>
    refine ih _ ?_
    simp only [force_liquidate_one]
    split
    · exact Nat.succ_le_succ h
    · exact Nat.le_succ_of_le h

lemma ledger_step_win_le_trade (a b : Strat) (hstep : LedgerStep a b)
    (h : a.win_count ≤ a.trade_count) : b.win_count ≤ b.trade_count := by
  cases hstep with
  | open_position position_type ts swap_price spot_price =>
    exact h
  | close_position p swap_price spot_price =>
    simp only [process_data_close]
    split
    · exact Nat.succ_le_succ h
    · exact Nat.le_succ_of_le h
  | funding g ts =>
    obtain ⟨ht, hw⟩ := process_funding_fees_counters g a ts
    rw [ht, hw]
    exact h
  | liquidate swap_price spot_price =>
    exact force_liquidate_fold_invariant swap_price spot_price a.positions a h

/-- C10: on every ledger state reachable from a freshly constructed strategy,
`win_count ≤ trade_count`; the win-rate denominator `max(1, trade_count)` is
strictly positive, so the division is always defined; with zero completed
trades the reported win rate is 0; and the win rate always lies in `[0, 1]`. -/
theorem win_rate_well_defined (capital : ℚ) (max_positions : ℕ) (fee_rate : ℚ)
    (funding_fee_enabled : Bool) (st : Strat)
    (h : Relation.ReflTransGen LedgerStep
      (init_strategy capital max_positions fee_rate funding_fee_enabled) st) :
    st.win_count ≤ st.trade_count ∧
    (0 : ℚ) < ((max 1 st.trade_count : ℕ) : ℚ) ∧
    (st.trade_count = 0 → win_rate st = 0) ∧
    0 ≤ win_rate st ∧ win_rate st ≤ 1 := by
  have hinv : st.win_count ≤ st.trade_count := by
    induction h with
    | refl => simp [init_strategy]
    | tail hsteps hstep ih => exact ledger_step_win_le_trade _ _ hstep ih
  have hpos : (0 : ℚ) < ((max 1 st.trade_count : ℕ) : ℚ) := by
    exact_mod_cast Nat.lt_of_lt_of_le Nat.zero_lt_one (le_max_left 1 st.trade_count)
  refine ⟨hinv, hpos, ?_, ?_, ?_⟩
  · intro h0
    have : st.win_count = 0 := Nat.le_zero.mp (h0 ▸ hinv)
    simp [win_rate, this]
  · exact div_nonneg (Nat.cast_nonneg _) (le_of_lt hpos)
  · rw [win_rate, div_le_one hpos]
    exact_mod_cast le_trans hinv (le_max_right 1 st.trade_count)

/-- Witness for C10 at the freshly constructed strategy itself
(zero trades): the reported win rate is 0 and lies in `[0, 1]`. -/
theorem win_rate_well_defined_witness :
    (init_strategy 10000 2 (15 / 100000) true).win_count
      ≤ (init_strategy 10000 2 (15 / 100000) true).trade_count ∧
    (0 : ℚ) < ((max 1 (init_strategy 10000 2 (15 / 100000) true).trade_count : ℕ) : ℚ) ∧
    ((init_strategy 10000 2 (15 / 100000) true).trade_count = 0 →
      win_rate (init_strategy 10000 2 (15 / 100000) true) = 0) ∧
    0 ≤ win_rate (init_strategy 10000 2 (15 / 100000) true) ∧
    win_rate (init_strategy 10000 2 (15 / 100000) true) ≤ 1 :=
  win_rate_well_defined 10000 2 (15 / 100000) true _ Relation.ReflTransGen.refl

end Backtest
